import Mathlib

/-!
# Liftbook: verification of the lift-editor core

Shallow embedding of the workout-logging app "liftbook": the lift data
model (`types.ts`), the numeric input validation of the entry footer
(`EntryFooter.tsx`), the editing-session state machine of
`LiftEditorScreen.tsx` (`handleEntrySubmit`, tap handlers, delete
confirmation, `saveLift` normalization), the weight-suggestion engine
(`weightSuggestions`), and the local persistence layer (`utils`:
`saveLiftLocally`, `retrieveLift`, `retrieveLifts`).

Numeric values are modelled as rationals (JS numbers on the inputs that
occur here behave exactly like the corresponding rationals); JS strings
are Lean strings.

The rational arithmetic functions are restored to their definitional
transparency so that concrete program runs can be settled by `decide`;
this only affects elaboration — kernel checking is unchanged.
-/

set_option allowUnsafeReducibility true

attribute [local semireducible] Rat.add Rat.mul Rat.sub Rat.inv

namespace Liftbook

/-- One weight-reps data point.  Source: `types.ts`, `interface Set`.
Weight and reps are stored as strings, exactly as in the source. -/
structure GymSet where
  weight : String
  reps : String
deriving DecidableEq, Repr

/-- A named exercise holding an ordered list of sets.
Source: `types.ts`, `interface Movement`. -/
structure Movement where
  name : String
  sets : List GymSet
deriving DecidableEq, Repr

/-- One logged workout session.  Source: `types.ts`, `interface Lift`. -/
structure Lift where
  id : String
  date : String
  title : String
  movements : List Movement
deriving DecidableEq, Repr

/-! ## Character and string primitives

Small evaluable stand-ins for the JS string primitives the source uses
(`trim`, `toLowerCase`, digit tests).  Only ASCII matters for the data
this program handles. -/

/-- ASCII digit test, as used by the number grammar `\d`. -/
def isDigitChar (c : Char) : Bool := decide ('0' ≤ c) && decide (c ≤ '9')

/-- Numeric value of an ASCII digit. -/
def digitVal : Char → Nat
  | '0' => 0 | '1' => 1 | '2' => 2 | '3' => 3 | '4' => 4
  | '5' => 5 | '6' => 6 | '7' => 7 | '8' => 8 | '9' => 9
  | _ => 0

/-- Whitespace for JS `trim` / leading-space skipping of `parseFloat`
(ASCII fragment). -/
def isWsChar (c : Char) : Bool :=
  decide (c = ' ') || decide (c = '\t') || decide (c = '\n') || decide (c = '\r')

/-- JS `String.prototype.trim` over the character list. -/
def trimChars (cs : List Char) : List Char :=
  ((cs.dropWhile isWsChar).reverse.dropWhile isWsChar).reverse

/-- JS `s.trim()`. -/
def jsTrim (s : String) : String := String.mk (trimChars s.data)

/-- JS `String.prototype.toLowerCase` on one character (ASCII fragment:
the movement names and titles this program compares are ASCII). -/
def lowerChar : Char → Char
  | 'A' => 'a' | 'B' => 'b' | 'C' => 'c' | 'D' => 'd' | 'E' => 'e'
  | 'F' => 'f' | 'G' => 'g' | 'H' => 'h' | 'I' => 'i' | 'J' => 'j'
  | 'K' => 'k' | 'L' => 'l' | 'M' => 'm' | 'N' => 'n' | 'O' => 'o'
  | 'P' => 'p' | 'Q' => 'q' | 'R' => 'r' | 'S' => 's' | 'T' => 't'
  | 'U' => 'u' | 'V' => 'v' | 'W' => 'w' | 'X' => 'x' | 'Y' => 'y'
  | 'Z' => 'z' | c => c

/-- JS `s.toLowerCase()`. -/
def jsLower (s : String) : String := String.mk (s.data.map lowerChar)

/-! ## JS number parsing

`parseFloat` and `Number(...)` as used by the suggestion engine and the
input validator.  Both are modelled over exact rationals: on the decimal
strings this program feeds them, IEEE doubles and rationals order and
compare identically for every comparison the program makes. -/

/-- Accumulate a run of ASCII digits: returns the value read so far, the
number of digits consumed, and the rest of the input. -/
def readDigits : List Char → Nat → Nat → Nat × Nat × List Char
  | [], acc, cnt => (acc, cnt, [])
  | c :: cs, acc, cnt =>
      if isDigitChar c then readDigits cs (acc * 10 + digitVal c) (cnt + 1)
      else (acc, cnt, c :: cs)

/-- Read an optional sign, returning the sign as `1` or `-1`. -/
def readSign : List Char → Int × List Char
  | '+' :: cs => (1, cs)
  | '-' :: cs => (-1, cs)
  | cs => (1, cs)

/-- Parse a decimal literal `[+-]? digits [. digits] [eE [+-] digits]`
from the front of the input.  Returns the parsed rational and the
unconsumed rest, or `none` when no digit is found (JS `NaN`).  This is
the common core of JS `parseFloat` (prefix parse) and `Number` (whole
string parse); hexadecimal and `Infinity` forms never occur in this
program and are not modelled. -/
def readDecimal (cs : List Char) : Option (ℚ × List Char) :=
  let (sign, cs₁) := readSign cs
  let (intVal, intCnt, cs₂) := readDigits cs₁ 0 0
  let (fracVal, fracCnt, cs₃) :=
    match cs₂ with
    | '.' :: rest => readDigits rest 0 0
    | _ => (0, 0, cs₂)
  if intCnt + fracCnt = 0 then
    none
  else
    let mantissa : ℚ := (sign : ℚ) * ((intVal : ℚ) + (fracVal : ℚ) / ((10 : ℚ) ^ fracCnt))
    -- Optional exponent; consumed only when at least one digit follows.
    match cs₃ with
    | e :: rest =>
        if e = 'e' ∨ e = 'E' then
          let (esign, rest₁) := readSign rest
          let (expVal, expCnt, rest₂) := readDigits rest₁ 0 0
          if expCnt = 0 then some (mantissa, cs₃)
          else
            let factor : ℚ := (10 : ℚ) ^ expVal
            some (if esign = 1 then mantissa * factor else mantissa / factor, rest₂)
        else some (mantissa, cs₃)
    | [] => some (mantissa, [])

/-- JS `parseFloat`: skip leading whitespace, parse a decimal prefix,
ignore any trailing garbage; `none` models `NaN`. -/
def jsParseFloat (s : String) : Option ℚ :=
  match readDecimal (s.data.dropWhile isWsChar) with
  | some (q, _) => some q
  | none => none

/-- JS `Number(...)` on a string: the trimmed empty string is `0`; a full
decimal literal is its value; anything else is `NaN` (`none`). -/
def jsNumber (s : String) : Option ℚ :=
  let t := trimChars s.data
  if t = [] then some 0
  else
    match readDecimal t with
    | some (q, []) => some q
    | _ => none

/-! ## Input validation (`EntryFooter.tsx`) -/

/-- The regex `^\d*\.?\d+$` from `isValidNumber`: digits, an optional
single dot, and at least one trailing digit. -/
def matchesNumberRegex (s : String) : Bool :=
  let cs := s.data
  let intPart := cs.takeWhile isDigitChar
  match cs.dropWhile isDigitChar with
  | [] => decide (intPart ≠ [])
  | '.' :: rest => decide (rest ≠ []) && rest.all isDigitChar
  | _ => false

/-- Source: `EntryFooter.tsx` lines 27-30.
`isValidNumber(value) = numberRegex.test(value) && parseFloat(value) > 0`. -/
def isValidNumber (value : String) : Bool :=
  matchesNumberRegex value &&
    match jsParseFloat value with
    | some q => decide (0 < q)
    | none => false

/-- The three display modes of the entry footer
(`EntryFooter.tsx`, `type EntryMode`). -/
inductive EntryMode where
  | single
  | double
  | hidden
deriving DecidableEq, Repr

/-- Outcome of one `handleSubmit` call of the entry footer: either a
transient warning is shown (and `onSubmit` is NOT invoked), or `onSubmit`
fires with the trimmed values, or nothing happens (hidden mode). -/
inductive SubmitResult where
  | warned (message : String)
  | submitted (first : String) (second : Option String)
  | ignored
deriving DecidableEq, Repr

/-- `showWarningMessage` arms a 2500 ms timer that clears the warning
(source: `EntryFooter`, `setTimeout(..., 2500)`). -/
def warningAutoClearMs : ℕ := 2500

/-- The validation and dispatch logic of `EntryFooter.handleSubmit`.
`firstValue`/`secondValue` are the effective field values (the source
applies `override ?? state` before this logic; both paths land here).
`isWeightEntry` mirrors `firstPlaceholder === 'Enter weight...'`.
A JS early `return` after `showWarningMessage` is `SubmitResult.warned`;
reaching `onSubmit` is `SubmitResult.submitted`. -/
def handleSubmit (mode : EntryMode) (isWeightEntry : Bool)
    (firstValue secondValue : String) : SubmitResult :=
  let firstToUse := jsTrim firstValue
  let secondToUse := jsTrim secondValue
  match mode with
  | .single =>
      if firstToUse = "" then
        .warned (if isWeightEntry then "Please enter a weight" else "Please enter a value")
      else if isWeightEntry && !isValidNumber firstToUse then
        .warned "Please enter a valid positive number for weight"
      else
        .submitted firstToUse none
  | .double =>
      if firstToUse = "" then
        .warned "Please enter a weight"
      else if secondToUse = "" then
        .warned "Please enter the number of reps"
      else if !isValidNumber firstToUse then
        .warned "Please enter a valid positive number for weight"
      else if !isValidNumber secondToUse then
        .warned "Please enter a valid positive number for reps"
      else
        .submitted firstToUse (some secondToUse)
  | .hidden => .ignored

end Liftbook

namespace Liftbook

/-- C6: for every string `w`, `isValidNumber w` is true exactly when `w`
matches `^\d*\.?\d+$` and `parseFloat` yields a value strictly greater
than zero; concretely, "135" and "12.5" validate while "0", "-5" and ""
do not. -/
theorem C6_isValidNumber_characterization :
    (∀ w : String,
      isValidNumber w = true ↔
        (matchesNumberRegex w = true ∧ ∃ q : ℚ, jsParseFloat w = some q ∧ 0 < q)) ∧
    isValidNumber "135" = true ∧
    isValidNumber "12.5" = true ∧
    isValidNumber "0" = false ∧
    isValidNumber "-5" = false ∧
    isValidNumber "" = false := by
  refine ⟨fun w => ?_, ?_, ?_, ?_, ?_, ?_⟩
  · unfold isValidNumber
    cases h : jsParseFloat w with
    | none => simp [h]
    | some q => simp [h]
  all_goals
    norm_num +decide [isValidNumber, matchesNumberRegex, jsParseFloat, readDecimal,
      readDigits, readSign, isDigitChar, digitVal, isWsChar]

/-- C5: in double mode, a missing weight, a missing reps value, or a
value failing the positive-decimal check makes `handleSubmit` show a
warning (auto-cleared after 2500 ms ≈ 2.5 s) and never reach `onSubmit`
(`SubmitResult.submitted`), so no editing-state transition and no
persistence can occur. -/
theorem C5_double_mode_validation_rejects (isWeightEntry : Bool)
    (firstValue secondValue : String)
    (h : jsTrim firstValue = "" ∨ jsTrim secondValue = "" ∨
         isValidNumber (jsTrim firstValue) = false ∨
         isValidNumber (jsTrim secondValue) = false) :
    (∃ msg, handleSubmit .double isWeightEntry firstValue secondValue =
      .warned msg) ∧
    (∀ f s, handleSubmit .double isWeightEntry firstValue secondValue ≠
      .submitted f s) ∧
    warningAutoClearMs = 2500 := by
  have hw : ∃ msg, handleSubmit .double isWeightEntry firstValue secondValue =
      .warned msg := by
    unfold handleSubmit
    by_cases h1 : jsTrim firstValue = ""
    · simp [h1]
    · by_cases h2 : jsTrim secondValue = ""
      · simp [h1, h2]
      · by_cases h3 : isValidNumber (jsTrim firstValue) = true
        · by_cases h4 : isValidNumber (jsTrim secondValue) = true
          · rcases h with h | h | h | h <;> simp_all
          · simp [h1, h2, h3, Bool.not_eq_true _ ▸ h4]
        · simp [h1, h2, h3]
  refine ⟨hw, ?_, rfl⟩
  rcases hw with ⟨msg, hmsg⟩
  intro f s
  rw [hmsg]
  simp

/-- Witness for C5 at a concrete rejected input. -/
theorem C5_witness :
    (∃ msg, handleSubmit .double false "abc" "5" = .warned msg) ∧
    (∀ f s, handleSubmit .double false "abc" "5" ≠ .submitted f s) ∧
    warningAutoClearMs = 2500 :=
  C5_double_mode_validation_rejects false "abc" "5"
    (by
      right; right; left
      norm_num +decide [isValidNumber, matchesNumberRegex, jsTrim, trimChars,
        isWsChar, isDigitChar])

/-! ## Editing state machine (`LiftEditorScreen.tsx`) -/

/-- Which logical field is live (`editingTarget` state variable). -/
inductive EditingTarget where
  | none
  | title
  | movementName
  | set
deriving DecidableEq, Repr

/-- The component state of the lift editor that the transition handlers
read and write: entry mode, editing target, the two indices, the
adding-new flag, and the lift document itself. -/
structure EditorState where
  entryMode : EntryMode
  editingTarget : EditingTarget
  editingMovementIndex : Option ℤ
  editingSetIndex : Option ℕ
  isAddingNewMovement : Bool
  lift : Lift
deriving DecidableEq, Repr

/-- `const NEW_MOVEMENT_INDEX = -1` — sentinel for a movement not yet
appended to the lift. -/
def newMovementIndex : ℤ := -1

/-- JS `Array.prototype.map((item, idx) => ...)`, with the running index
threaded explicitly so proofs can induct. -/
def mapFrom (f : ℕ → α → β) (k : ℕ) : List α → List β
  | [] => []
  | a :: as => f k a :: mapFrom f (k + 1) as

/-- JS `array.map((m, idx) => ...)` starting at index 0. -/
def mapWithIndex (f : ℕ → α → β) (l : List α) : List β := mapFrom f 0 l

/-- JS `array.filter((_, i) => i !== index)`: drop the element at one
position, keeping everything else in order. -/
def filterFrom (p : ℕ → α → Bool) (k : ℕ) : List α → List α
  | [] => []
  | a :: as => if p k a then a :: filterFrom p (k + 1) as else filterFrom p (k + 1) as

/-- JS `array.filter((item, i) => ...)` starting at index 0. -/
def filterWithIndex (p : ℕ → α → Bool) (l : List α) : List α := filterFrom p 0 l

/-- List lookup with the source's implicit in-bounds contract
(`movements[i]` where the handler has checked `0 <= i < length`). -/
def movAt (ms : List Movement) (i : ℕ) : Movement := ms.getD i ⟨"", []⟩

/-- The `liftWithDate` normalization of `LiftEditorScreen.saveLift`
(lines 486-497): fall back to the current date when `date` is falsy, and
drop every movement whose `sets` array is empty.  `today` stands for the
formatted `new Date()` string. -/
def saveLiftNormalize (today : String) (l : Lift) : Lift :=
  { l with
    date := if l.date = "" then today else l.date,
    movements := l.movements.filter (fun m => decide (0 < m.sets.length)) }

/-- `handleEntrySubmit` (`LiftEditorScreen.tsx` lines 507-590): applies a
submitted value to the state and document.  Returns the next state and
the list of lifts handed to `saveLift` (persistence requests).  A falsy
`second` (absent or empty string) makes the double branch a no-op, as in
the source. -/
def handleEntrySubmit (st : EditorState) (first : String) (second : Option String) :
    EditorState × List Lift :=
  match st.entryMode with
  | .single =>
    if st.editingTarget = .title ∨ st.lift.title = "" then
      let newLift := { st.lift with title := first }
      ({ st with lift := newLift,
                 isAddingNewMovement := true,
                 editingMovementIndex := some newMovementIndex,
                 editingSetIndex := Option.none,
                 editingTarget := .movementName,
                 entryMode := .single }, [newLift])
    else
      let isExistingMovement : Bool :=
        decide (st.editingTarget = .movementName) &&
        (match st.editingMovementIndex with
         | some i => decide (0 ≤ i) && decide (i < st.lift.movements.length)
         | Option.none => false) &&
        !st.isAddingNewMovement
      if isExistingMovement then
        let renamed := mapWithIndex (fun idx m =>
          if st.editingMovementIndex = some (idx : ℤ) then { m with name := first } else m)
          st.lift.movements
        let newLift := { st.lift with movements := renamed }
        ({ st with lift := newLift,
                   editingTarget := .none,
                   editingMovementIndex := Option.none,
                   entryMode := .single,
                   isAddingNewMovement := false }, [newLift])
      else
        let newLift := { st.lift with movements := st.lift.movements ++ [⟨first, []⟩] }
        ({ st with lift := newLift,
                   editingMovementIndex := some (st.lift.movements.length : ℤ),
                   editingSetIndex := some 0,
                   editingTarget := .set,
                   entryMode := .double,
                   isAddingNewMovement := false }, [])
  | .double =>
    match second with
    | some sec =>
      if sec = "" then (st, [])
      else
        let upserted := mapWithIndex (fun idx m =>
          if st.editingMovementIndex ≠ some (idx : ℤ) then m
          else
            match st.editingSetIndex with
            | some j =>
                if st.editingTarget = .set ∧ j < m.sets.length then
                  { m with sets := m.sets.set j ⟨first, sec⟩ }
                else { m with sets := m.sets ++ [⟨first, sec⟩] }
            | Option.none => { m with sets := m.sets ++ [⟨first, sec⟩] })
          st.lift.movements
        let newLift := { st.lift with movements := upserted }
        let st₁ := { st with lift := newLift, entryMode := .double }
        let st₂ :=
          match st.editingMovementIndex with
          | some i =>
              if 0 ≤ i ∧ i < (newLift.movements.length : ℤ) then
                { st₁ with
                    editingSetIndex := some (movAt newLift.movements i.toNat).sets.length,
                    editingTarget := .set }
              else st₁
          | Option.none => st₁
        (st₂, [newLift])
    | Option.none => (st, [])
  | .hidden => (st, [])

/-- `onMovementPress` (bubble tap, `LiftEditorScreen.tsx` lines 1339-1346). -/
def onMovementPress (st : EditorState) (index : ℕ) : EditorState :=
  { st with isAddingNewMovement := false,
            editingMovementIndex := some (index : ℤ),
            editingSetIndex := Option.none,
            editingTarget := .movementName,
            entryMode := .single }

/-- `onSetPress` (set bubble tap, `LiftEditorScreen.tsx` lines 1348-1355). -/
def onSetPress (st : EditorState) (index setIdx : ℕ) : EditorState :=
  { st with isAddingNewMovement := false,
            editingMovementIndex := some (index : ℤ),
            editingSetIndex := some setIdx,
            editingTarget := .set,
            entryMode := .double }

/-- The confirmed branch of `handleMovementLongPress`
(`LiftEditorScreen.tsx` lines 606-620): remove the movement at `index`,
persist, reset `isAddingNewMovement` and the pending-delete marker.
The editing target and indices are NOT touched by this handler. -/
def confirmDeleteMovement (st : EditorState) (index : ℕ) : EditorState × List Lift :=
  let kept := filterWithIndex (fun i _ => decide (i ≠ index)) st.lift.movements
  let newLift := { st.lift with movements := kept }
  ({ st with lift := newLift, isAddingNewMovement := false }, [newLift])

/-- The fresh-lift constructor (`LiftEditorScreen.tsx` lines 69-80):
empty title, no movements. -/
def initialLift (id date : String) : Lift := ⟨id, date, "", []⟩

/-- Initial editing state for a lift with no existing id
(`LiftEditorScreen.tsx` lines 138-145): single mode, title target. -/
def initialEditorStateNew (id date : String) : EditorState :=
  { entryMode := .single,
    editingTarget := .title,
    editingMovementIndex := Option.none,
    editingSetIndex := Option.none,
    isAddingNewMovement := false,
    lift := initialLift id date }

/-! ### Helper lemmas about the indexed list combinators -/

theorem mapFrom_length (f : ℕ → α → β) (k : ℕ) (l : List α) :
    (mapFrom f k l).length = l.length := by
  induction l generalizing k with
  | nil => rfl
  | cons a as ih => simp [mapFrom, ih]

theorem mapFrom_get? (f : ℕ → α → β) (k n : ℕ) (l : List α) :
    (mapFrom f k l).get? n = (l.get? n).map (f (k + n)) := by
  induction l generalizing k n with
  | nil => simp [mapFrom]
  | cons a as ih =>
      cases n with
      | zero => simp [mapFrom]
      | succ m =>
          simp only [mapFrom, List.get?_cons_succ, ih (k + 1) m]
          ring_nf

theorem mapFrom_eq_self (f : ℕ → α → α) (k : ℕ) (l : List α)
    (h : ∀ n a, l.get? n = some a → f (k + n) a = a) : mapFrom f k l = l := by
  induction l generalizing k with
  | nil => rfl
  | cons a as ih =>
      have h0 : f k a = a := by
        have := h 0 a (by simp)
        simpa using this
      have hrest : mapFrom f (k + 1) as = as := by
        refine ih (k + 1) (fun n b hb => ?_)
        have := h (n + 1) b (by simpa using hb)
        have harith : k + 1 + n = k + (n + 1) := by ring
        rw [harith]
        exact this
      simp [mapFrom, h0, hrest]

theorem filterFrom_ne_eq_eraseIdx (l : List α) (k j : ℕ) :
    filterFrom (fun i _ => decide (i ≠ j)) k l =
      (if j < k then l else l.eraseIdx (j - k)) := by
  induction l generalizing k with
  | nil => simp [filterFrom]
  | cons a as ih =>
      rw [filterFrom]
      split
      · next hcond =>
          have hk : k ≠ j := by simpa using hcond
          rw [ih (k + 1)]
          by_cases hj : j < k
          · rw [if_pos (by omega), if_pos hj]
          · rw [if_neg (by omega), if_neg hj]
            have hstep : j - k = (j - (k + 1)) + 1 := by omega
            rw [hstep]
            rfl
      · next hcond =>
          have hk : k = j := by simpa using hcond
          subst hk
          rw [ih (k + 1), if_pos (by omega), if_neg (by omega)]
          have hz : k - k = 0 := by omega
          rw [hz]
          rfl

theorem set_append_singleton_last (l : List α) (a : α) :
    (l ++ [a]).set l.length a = l ++ [a] := by
  induction l with
  | nil => rfl
  | cons x xs ih => simp [List.set, ih]

end Liftbook

namespace Liftbook

/-- The first submit of the C1 scenario: a title on a fresh lift. -/
def c1Step1 : EditorState × List Lift :=
  handleEntrySubmit (initialEditorStateNew "1700000000000" "2023-11-14")
    "Push Day" Option.none

/-- The second submit of the C1 scenario: a movement name. -/
def c1Step2 : EditorState × List Lift :=
  handleEntrySubmit c1Step1.1 "Bench Press" Option.none

/-- The third submit of the C1 scenario: weight "100", reps "5". -/
def c1Step3 : EditorState × List Lift :=
  handleEntrySubmit c1Step2.1 "100" (some "5")

/-- C1: from a fresh lift (empty title, no movements), submitting a
title moves to `{single, movementName, -1, null, isAddingNewMovement}`
and persists the titled lift; submitting a movement name appends
`{name, sets: []}` and moves to `{double, set, 0, 0, false}`; submitting
weight "100" reps "5" appends that set, advances `editingSetIndex` to 1,
and keeps the target on `set`. -/
theorem C1_fresh_lift_scenario :
    (c1Step1.1.lift.title = "Push Day" ∧ c1Step1.2 = [c1Step1.1.lift] ∧
      c1Step1.1.entryMode = .single ∧ c1Step1.1.editingTarget = .movementName ∧
      c1Step1.1.editingMovementIndex = some (-1) ∧
      c1Step1.1.editingSetIndex = Option.none ∧
      c1Step1.1.isAddingNewMovement = true) ∧
    (c1Step2.1.lift.movements = [⟨"Bench Press", []⟩] ∧
      c1Step2.1.entryMode = .double ∧ c1Step2.1.editingTarget = .set ∧
      c1Step2.1.editingMovementIndex = some 0 ∧ c1Step2.1.editingSetIndex = some 0 ∧
      c1Step2.1.isAddingNewMovement = false) ∧
    (c1Step3.1.lift.movements = [⟨"Bench Press", [⟨"100", "5"⟩]⟩] ∧
      c1Step3.1.editingSetIndex = some 1 ∧ c1Step3.1.editingTarget = .set) := by
  decide

/-- C2: every record handed to the persistence write by `saveLift` has a
non-empty date (falling back to `today` when the stored date is empty)
and no movement with an empty `sets` array; `saveLift` applies this
normalization on each of its calls, and every persistence write of the
editor goes through `saveLift`. -/
theorem C2_saved_record_is_normalized (today : String) (l : Lift)
    (h : today ≠ "") :
    (saveLiftNormalize today l).date ≠ "" ∧
    ∀ m ∈ (saveLiftNormalize today l).movements, m.sets ≠ [] := by
  constructor
  · unfold saveLiftNormalize
    by_cases hd : l.date = "" <;> simp [hd, h]
  · intro m hm
    unfold saveLiftNormalize at hm
    simp only [List.mem_filter, decide_eq_true_eq] at hm
    rcases hm with ⟨-, hlen⟩
    intro hnil
    rw [hnil] at hlen
    simp at hlen

/-- Witness for C2: a lift with an empty date and an empty-sets movement
is saved with the fallback date and without that movement. -/
theorem C2_witness :
    (saveLiftNormalize "2024-01-02" ⟨"1", "", "Push Day",
        [⟨"Bench Press", []⟩, ⟨"Row", [⟨"95", "5"⟩]⟩]⟩).date ≠ "" ∧
    ∀ m ∈ (saveLiftNormalize "2024-01-02" ⟨"1", "", "Push Day",
        [⟨"Bench Press", []⟩, ⟨"Row", [⟨"95", "5"⟩]⟩]⟩).movements, m.sets ≠ [] :=
  C2_saved_record_is_normalized "2024-01-02" _ (by decide)

/-- Refutation input for C3: the editor is renaming movement 0 when that
very movement is deleted. -/
def c3DeleteState : EditorState :=
  { entryMode := .single,
    editingTarget := .movementName,
    editingMovementIndex := some 0,
    editingSetIndex := Option.none,
    isAddingNewMovement := false,
    lift := ⟨"1", "2024-01-01", "Push Day", [⟨"Bench Press", [⟨"100", "5"⟩]⟩]⟩ }

/-- C3 counterexample: after confirming deletion of movement 0 while the
editing state points at movement 0, the editing state still points at
index 0 (`editingTarget` is still `movementName`) although the lift now
has no movements — contradicting the claim that the editing state is
cleared whenever it pointed at the removed movement. -/
theorem C3_counterexample :
    (confirmDeleteMovement c3DeleteState 0).1.editingTarget = .movementName ∧
    (confirmDeleteMovement c3DeleteState 0).1.editingMovementIndex = some 0 ∧
    (confirmDeleteMovement c3DeleteState 0).1.lift.movements = [] := by
  decide

/-- Reduction of the rename branch of `handleEntrySubmit`: in single
mode, editing an existing movement, a submit renames that movement. -/
theorem submit_rename_lift_eq (st : EditorState) (first : String) (i : ℕ)
    (hmode : st.entryMode = .single)
    (htarget : st.editingTarget = .movementName)
    (htitle : st.lift.title ≠ "")
    (hmi : st.editingMovementIndex = some (i : ℤ))
    (hadd : st.isAddingNewMovement = false)
    (hlt : i < st.lift.movements.length) :
    (handleEntrySubmit st first Option.none).1.lift =
      { st.lift with movements := (mapWithIndex (fun idx m =>
          if st.editingMovementIndex = some (idx : ℤ) then { m with name := first } else m)
          st.lift.movements) } := by
  have hlt' : ((i : ℤ) < (st.lift.movements.length : ℤ)) := by exact_mod_cast hlt
  simp [handleEntrySubmit, hmode, htarget, htitle, hmi, hadd, hlt']

/-- Reduction of the double branch of `handleEntrySubmit`: with a truthy
second value, a submit upserts the set addressed by the editing state. -/
theorem submit_double_lift_eq (st : EditorState) (w sec : String)
    (hmode : st.entryMode = .double) (hsec : sec ≠ "") :
    (handleEntrySubmit st w (some sec)).1.lift =
      { st.lift with movements := (mapWithIndex (fun idx m =>
          if st.editingMovementIndex ≠ some (idx : ℤ) then m
          else
            match st.editingSetIndex with
            | some j =>
                if st.editingTarget = .set ∧ j < m.sets.length then
                  { m with sets := m.sets.set j ⟨w, sec⟩ }
                else { m with sets := m.sets ++ [⟨w, sec⟩] }
            | Option.none => { m with sets := m.sets ++ [⟨w, sec⟩] })
          st.lift.movements) } := by
  unfold handleEntrySubmit
  simp only [hmode]
  rw [if_neg hsec]
  cases hmi : st.editingMovementIndex with
  | none => simp [hmi]
  | some i =>
      simp only [hmi]
      split <;> rfl

theorem movAt_get? (ms : List Movement) (i : ℕ) (m : Movement)
    (h : ms.get? i = some m) : movAt ms i = m := by
  induction ms generalizing i with
  | nil => simp at h
  | cons x xs ih =>
      cases i with
      | zero => simp at h; simp [movAt, List.getD, h]
      | succ n =>
          simp only [List.get?_cons_succ] at h
          simpa [movAt, List.getD] using ih n h

theorem resubmit_rename_eq (st : EditorState) (i : ℕ) (text : String)
    (hmode : st.entryMode = .single)
    (htarget : st.editingTarget = .movementName)
    (hmi : st.editingMovementIndex = some (i : ℤ))
    (hadd : st.isAddingNewMovement = false)
    (htitle : st.lift.title ≠ "")
    (hlt : i < st.lift.movements.length) :
    (handleEntrySubmit (onMovementPress (handleEntrySubmit st text Option.none).1 i)
        text Option.none).1.lift =
      (handleEntrySubmit st text Option.none).1.lift := by
  have h1 := submit_rename_lift_eq st text i hmode htarget htitle hmi hadd hlt
  set st2 := onMovementPress (handleEntrySubmit st text Option.none).1 i with hst2
  have hlift2 : st2.lift = (handleEntrySubmit st text Option.none).1.lift := rfl
  have hmi2 : st2.editingMovementIndex = some (i : ℤ) := rfl
  have htitle2 : st2.lift.title ≠ "" := by
    rw [hlift2, h1]
    exact htitle
  have hlen2 : st2.lift.movements.length = st.lift.movements.length := by
    rw [hlift2, h1]
    exact mapFrom_length _ 0 _
  have h2 := submit_rename_lift_eq st2 text i rfl rfl htitle2 hmi2 rfl (hlen2 ▸ hlt)
  rw [h2]
  rw [hlift2, h1]
  have hmap : mapFrom (fun idx m =>
      if st2.editingMovementIndex = some (idx : ℤ) then { m with name := text } else m) 0
      (mapWithIndex (fun idx m =>
        if st.editingMovementIndex = some (idx : ℤ) then { m with name := text } else m)
        st.lift.movements) =
      mapWithIndex (fun idx m =>
        if st.editingMovementIndex = some (idx : ℤ) then { m with name := text } else m)
        st.lift.movements := by
    apply mapFrom_eq_self
    intro n a ha
    rw [hmi2]
    unfold mapWithIndex at ha
    rw [mapFrom_get? _ 0 n] at ha
    simp only [Nat.zero_add] at ha
    by_cases hni : i = n
    · subst hni
      simp only [Nat.zero_add, if_true]
      rw [hmi] at ha
      simp only [if_pos rfl] at ha
      rcases Option.map_eq_some'.mp ha with ⟨m, hm, hfa⟩
      rw [← hfa]
      simp
    · rw [if_neg (by simpa using hni)]
  unfold mapWithIndex at hmap ⊢
  rw [hmap]

theorem resubmit_upsert_eq (st : EditorState) (i j : ℕ) (w r : String)
    (hmode : st.entryMode = .double)
    (htarget : st.editingTarget = .set)
    (hmi : st.editingMovementIndex = some (i : ℤ))
    (hsi : st.editingSetIndex = some j)
    (hj : j ≤ (movAt st.lift.movements i).sets.length)
    (hr : r ≠ "") :
    (handleEntrySubmit (onSetPress (handleEntrySubmit st w (some r)).1 i j)
        w (some r)).1.lift =
      (handleEntrySubmit st w (some r)).1.lift := by
  have h1 := submit_double_lift_eq st w r hmode hr
  set st2 := onSetPress (handleEntrySubmit st w (some r)).1 i j with hst2
  have hmode2 : st2.entryMode = .double := rfl
  have h2 := submit_double_lift_eq st2 w r hmode2 hr
  have hlift2 : st2.lift = (handleEntrySubmit st w (some r)).1.lift := rfl
  have hmi2 : st2.editingMovementIndex = some (i : ℤ) := rfl
  have hsi2 : st2.editingSetIndex = some j := rfl
  have htar2 : st2.editingTarget = .set := rfl
  rw [h2, hlift2, h1]
  simp only [hmi, hsi, htarget, hmi2, hsi2, htar2]
  congr 1
  apply mapFrom_eq_self
  intro n a ha
  simp only [Nat.zero_add]
  by_cases hni : i = n
  · subst hni
    rw [if_neg (by simp)]
    unfold mapWithIndex at ha
    rw [mapFrom_get? _ 0 i] at ha
    simp only [Nat.zero_add] at ha
    rcases Option.map_eq_some'.mp ha with ⟨m, hm, hfa⟩
    have hjm : j ≤ m.sets.length := by
      rw [movAt_get? st.lift.movements i m hm] at hj
      exact hj
    rw [if_neg (by simp)] at hfa
    by_cases hlt2 : j < m.sets.length
    · rw [if_pos ⟨trivial, hlt2⟩] at hfa
      have hlen : a.sets.length = m.sets.length := by
        rw [← hfa]
        simp [List.length_set]
      rw [if_pos ⟨trivial, by omega⟩]
      rw [← hfa]
      simp [List.set_set]
    · have hje : j = m.sets.length := by omega
      rw [if_neg (by simp [hlt2])] at hfa
      have hlen : a.sets.length = m.sets.length + 1 := by
        rw [← hfa]
        simp
      rw [if_pos ⟨trivial, by omega⟩]
      rw [← hfa]
      simp only []
      congr 1
      subst hje
      exact set_append_singleton_last m.sets ⟨w, r⟩
  · rw [if_pos (by simpa using hni)]

/-- C8: resubmitting the same rename (single mode, target
`movementName`, existing movement) or the same set upsert (double mode,
target `set`, same indices) with identical text yields the same lift
both times — the second submit duplicates nothing. -/
theorem C8_resubmit_idempotent (st : EditorState) (i j : ℕ) (text w r : String) :
    ((st.entryMode = .single ∧ st.editingTarget = .movementName ∧
      st.editingMovementIndex = some (i : ℤ) ∧ st.isAddingNewMovement = false ∧
      st.lift.title ≠ "" ∧ i < st.lift.movements.length) →
      (handleEntrySubmit (onMovementPress (handleEntrySubmit st text Option.none).1 i)
        text Option.none).1.lift = (handleEntrySubmit st text Option.none).1.lift) ∧
    ((st.entryMode = .double ∧ st.editingTarget = .set ∧
      st.editingMovementIndex = some (i : ℤ) ∧ st.editingSetIndex = some j ∧
      j ≤ (movAt st.lift.movements i).sets.length ∧ r ≠ "") →
      (handleEntrySubmit (onSetPress (handleEntrySubmit st w (some r)).1 i j)
        w (some r)).1.lift = (handleEntrySubmit st w (some r)).1.lift) := by
  constructor
  · rintro ⟨hmode, htarget, hmi, hadd, htitle, hlt⟩
    exact resubmit_rename_eq st i text hmode htarget hmi hadd htitle hlt
  · rintro ⟨hmode, htarget, hmi, hsi, hjle, hr⟩
    exact resubmit_upsert_eq st i j w r hmode htarget hmi hsi hjle hr

/-- Concrete state for the C8 rename witness: renaming movement 0. -/
def c8RenameState : EditorState :=
  { entryMode := .single,
    editingTarget := .movementName,
    editingMovementIndex := some 0,
    editingSetIndex := Option.none,
    isAddingNewMovement := false,
    lift := ⟨"1", "2024-01-01", "Push Day", [⟨"Bench Press", [⟨"100", "5"⟩]⟩]⟩ }

/-- Concrete state for the C8 upsert witness: editing set 0 of
movement 0. -/
def c8UpsertState : EditorState :=
  { entryMode := .double,
    editingTarget := .set,
    editingMovementIndex := some 0,
    editingSetIndex := some 0,
    isAddingNewMovement := false,
    lift := ⟨"1", "2024-01-01", "Push Day", [⟨"Bench Press", [⟨"100", "5"⟩]⟩]⟩ }

/-- Witness for C8 at concrete states: one rename resubmit and one set
upsert resubmit, each leaving the lift unchanged the second time. -/
theorem C8_witness :
    (handleEntrySubmit
        (onMovementPress (handleEntrySubmit c8RenameState "Incline Press" Option.none).1 0)
        "Incline Press" Option.none).1.lift =
      (handleEntrySubmit c8RenameState "Incline Press" Option.none).1.lift ∧
    (handleEntrySubmit
        (onSetPress (handleEntrySubmit c8UpsertState "105" (some "5")).1 0 0)
        "105" (some "5")).1.lift =
      (handleEntrySubmit c8UpsertState "105" (some "5")).1.lift :=
  ⟨(C8_resubmit_idempotent c8RenameState 0 0 "Incline Press" "" "").1
      ⟨rfl, rfl, rfl, rfl, by decide, by decide⟩,
   (C8_resubmit_idempotent c8UpsertState 0 0 "" "105" "5").2
      ⟨rfl, rfl, rfl, rfl, by decide, by decide⟩⟩

/-- C3 amended: confirming a movement deletion removes exactly that
movement and persists the result, and resets `isAddingNewMovement`; but
`editingTarget`, `editingMovementIndex` and `editingSetIndex` are left
unchanged even when they referenced the removed movement (stale indices
are tolerated by bounds checks elsewhere in the component). -/
theorem C3_delete_movement_amended (st : EditorState) (index : ℕ) :
    (confirmDeleteMovement st index).1.lift.movements =
      st.lift.movements.eraseIdx index ∧
    (confirmDeleteMovement st index).2 =
      [(confirmDeleteMovement st index).1.lift] ∧
    (confirmDeleteMovement st index).1.isAddingNewMovement = false ∧
    (confirmDeleteMovement st index).1.editingTarget = st.editingTarget ∧
    (confirmDeleteMovement st index).1.editingMovementIndex = st.editingMovementIndex ∧
    (confirmDeleteMovement st index).1.editingSetIndex = st.editingSetIndex := by
  refine ⟨?_, rfl, rfl, rfl, rfl, rfl⟩
  show filterWithIndex (fun i _ => decide (i ≠ index)) st.lift.movements =
    st.lift.movements.eraseIdx index
  unfold filterWithIndex
  rw [filterFrom_ne_eq_eraseIdx]
  simp

end Liftbook

namespace Liftbook

/-! ## Local persistence (`utils`, src/unnamed/part_004)

The `user_lifts` record in AsyncStorage is a JSON object from key to
lift; it is modelled as its entry list in object insertion order.
`getLocalData` re-keys legacy date-shaped keys to the record's own id on
every read; `saveLiftLocally` assigns `localData.lifts[lift.id] = lift`
and writes the result back. -/

/-- One stored `user_lifts` object: entries in insertion order. -/
abbrev LiftStore := List (String × Lift)

/-- The storage layer's `^\d{4}-\d{2}-\d{2}$` test (`key.match(...)` /
`liftId.match(...)`). -/
def isDateKey (s : String) : Bool :=
  match s.data with
  | [a, b, c, d, h1, e, f, h2, g, h] =>
      isDigitChar a && isDigitChar b && isDigitChar c && isDigitChar d &&
      decide (h1 = '-') && isDigitChar e && isDigitChar f &&
      decide (h2 = '-') && isDigitChar g && isDigitChar h
  | _ => false

/-- JS object property assignment `obj[k] = v`: replaces in place when
the key exists (keeping its position), otherwise appends. -/
def putKV (m : LiftStore) (k : String) (v : Lift) : LiftStore :=
  match m with
  | [] => [(k, v)]
  | (k', v') :: rest => if k' = k then (k, v) :: rest else (k', v') :: putKV rest k v

/-- JS object property read `obj[k]` (`undefined` is `none`). -/
def getKV (m : LiftStore) (k : String) : Option Lift :=
  match m with
  | [] => Option.none
  | (k', v') :: rest => if k' = k then some v' else getKV rest k

/-- The key normalization of `getLocalData` (part_004 lines 24-33): a
date-shaped key whose record has a truthy `id` is re-keyed to that id;
every other entry keeps its key.  Performed with object assignments in
entry order. -/
def normalizeLiftKeys (entries : LiftStore) : LiftStore :=
  entries.foldl (fun acc e =>
    if isDateKey e.1 && decide (e.2.id ≠ "") then putKV acc e.2.id e.2
    else putKV acc e.1 e.2) []

/-- `saveLiftLocally` (part_004 lines 47-57): read and normalize the
store, assign `lifts[lift.id] = lift`, write the result back. -/
def saveLiftLocally (raw : LiftStore) (l : Lift) : LiftStore :=
  putKV (normalizeLiftKeys raw) l.id l

/-- `retrieveLifts` (part_004 lines 153-161): the normalized view. -/
def retrieveLifts (raw : LiftStore) : LiftStore := normalizeLiftKeys raw

/-- `retrieveLift` (part_004 lines 164-185): lookup by id, then — for a
date-shaped id — a scan of all lifts for a matching `date`. -/
def retrieveLift (raw : LiftStore) (liftId : String) : Option Lift :=
  let lifts := normalizeLiftKeys raw
  match getKV lifts liftId with
  | some l => some l
  | Option.none =>
      if isDateKey liftId then
        match lifts.find? (fun e => decide (e.2.date = liftId)) with
        | some e => some e.2
        | Option.none => Option.none
      else Option.none

/-! ### Store lemmas -/

theorem getKV_putKV_self (m : LiftStore) (k : String) (v : Lift) :
    getKV (putKV m k v) k = some v := by
  induction m with
  | nil => simp [putKV, getKV]
  | cons e rest ih =>
      obtain ⟨k', v'⟩ := e
      by_cases hk : k' = k
      · simp [putKV, hk, getKV]
      · simp [putKV, hk, getKV, ih]

theorem getKV_putKV_other (m : LiftStore) (k k' : String) (v : Lift)
    (hne : k' ≠ k) : getKV (putKV m k v) k' = getKV m k' := by
  have hne' : k ≠ k' := fun h => hne h.symm
  induction m with
  | nil => simp [putKV, getKV, hne']
  | cons e rest ih =>
      obtain ⟨k₀, v₀⟩ := e
      by_cases hk : k₀ = k
      · subst hk
        simp [putKV, getKV, hne']
      · simp only [putKV, hk, if_false, getKV]
        by_cases hk' : k₀ = k'
        · simp [hk']
        · simp [hk', ih]

theorem mem_putKV (m : LiftStore) (k : String) (v : Lift) (e : String × Lift)
    (he : e ∈ putKV m k v) : e = (k, v) ∨ e ∈ m := by
  induction m with
  | nil => simpa [putKV] using he
  | cons e₀ rest ih =>
      obtain ⟨k₀, v₀⟩ := e₀
      by_cases hk : k₀ = k
      · rw [putKV] at he
        simp only [hk, if_pos rfl] at he
        rcases List.mem_cons.mp he with h | h
        · exact Or.inl h
        · exact Or.inr (List.mem_cons_of_mem _ h)
      · rw [putKV] at he
        simp only [hk, if_false] at he
        rcases List.mem_cons.mp he with h | h
        · exact Or.inr (h ▸ List.mem_cons_self _ _)
        · rcases ih h with h' | h'
          · exact Or.inl h'
          · exact Or.inr (List.mem_cons_of_mem _ h')

theorem keys_putKV_nodup (m : LiftStore) (k : String) (v : Lift)
    (h : (m.map Prod.fst).Nodup) : ((putKV m k v).map Prod.fst).Nodup := by
  induction m with
  | nil => simp [putKV]
  | cons e rest ih =>
      obtain ⟨k₀, v₀⟩ := e
      simp only [List.map_cons, List.nodup_cons] at h
      by_cases hk : k₀ = k
      · subst hk
        simpa [putKV] using h
      · rw [putKV]
        simp only [hk, if_false, List.map_cons, List.nodup_cons]
        refine ⟨fun hmem => ?_, ih h.2⟩
        have : ∀ e' ∈ putKV rest k v, e'.1 = k₀ → False := by
          intro e' he' hfst
          rcases mem_putKV rest k v e' he' with h' | h'
          · rw [h'] at hfst
            exact hk hfst.symm
          · exact h.1 (hfst ▸ List.mem_map_of_mem Prod.fst h')
        rcases List.mem_map.mp hmem with ⟨e', he', hfst⟩
        exact this e' he' hfst

/-- An entry is self-keyed when the normalization step would keep it
under its present key. -/
def SelfKeyed (e : String × Lift) : Prop :=
  (if isDateKey e.1 && decide (e.2.id ≠ "") then e.2.id else e.1) = e.1

theorem selfKeyed_putKV_target (k : String) (v : Lift) (hk : k = v.id) :
    SelfKeyed (k, v) := by
  subst hk
  unfold SelfKeyed
  split <;> rfl

theorem getKV_eq_none_of_not_mem (m : LiftStore) (k : String)
    (h : k ∉ m.map Prod.fst) : getKV m k = Option.none := by
  induction m with
  | nil => rfl
  | cons e rest ih =>
      obtain ⟨k₀, v₀⟩ := e
      simp only [List.map_cons, List.mem_cons] at h
      push_neg at h
      rw [getKV, if_neg (fun he => h.1 he.symm)]
      exact ih h.2

/-- The normalization step coincides with a plain re-insertion when all
entries are already self-keyed. -/
theorem normalizeFold_eq (m : LiftStore) (acc : LiftStore)
    (h : ∀ e ∈ m, SelfKeyed e) :
    m.foldl (fun a e =>
      if isDateKey e.1 && decide (e.2.id ≠ "") then putKV a e.2.id e.2
      else putKV a e.1 e.2) acc =
    m.foldl (fun a e => putKV a e.1 e.2) acc := by
  induction m generalizing acc with
  | nil => rfl
  | cons e rest ih =>
      simp only [List.foldl_cons]
      have hsk := h e (List.mem_cons_self _ _)
      unfold SelfKeyed at hsk
      have hstep : (if isDateKey e.1 && decide (e.2.id ≠ "") then putKV acc e.2.id e.2
          else putKV acc e.1 e.2) = putKV acc e.1 e.2 := by
        by_cases hc : (isDateKey e.1 && decide (e.2.id ≠ "")) = true
        · rw [if_pos hc]
          rw [if_pos hc] at hsk
          rw [hsk]
        · rw [if_neg hc]
      rw [hstep]
      exact ih _ (fun e' he' => h e' (List.mem_cons_of_mem _ he'))

/-- Re-inserting a key-nodup entry list into an accumulator: lookups hit
the list first, then the accumulator. -/
theorem foldl_putKV_lookup (m : LiftStore) (acc : LiftStore) (k : String)
    (hnd : (m.map Prod.fst).Nodup) :
    getKV (m.foldl (fun a e => putKV a e.1 e.2) acc) k =
      (match getKV m k with
       | some v => some v
       | Option.none => getKV acc k) := by
  induction m generalizing acc with
  | nil => rfl
  | cons e rest ih =>
      obtain ⟨k₀, v₀⟩ := e
      simp only [List.map_cons, List.nodup_cons] at hnd
      simp only [List.foldl_cons]
      rw [ih _ hnd.2]
      by_cases hk : k₀ = k
      · subst hk
        have hnone : getKV rest k₀ = Option.none :=
          getKV_eq_none_of_not_mem rest k₀ hnd.1
        rw [hnone]
        simp only [getKV, if_pos rfl]
        exact getKV_putKV_self acc k₀ v₀
      · rw [getKV, if_neg hk]
        cases hrest : getKV rest k with
        | some v => rfl
        | none => exact getKV_putKV_other acc k₀ k v₀ (fun h => hk h.symm)

/-- All entries produced by the key normalization are self-keyed. -/
theorem normalizeFold_selfKeyed (m : LiftStore) (acc : LiftStore)
    (hacc : ∀ e ∈ acc, SelfKeyed e) :
    ∀ e ∈ m.foldl (fun a e =>
      if isDateKey e.1 && decide (e.2.id ≠ "") then putKV a e.2.id e.2
      else putKV a e.1 e.2) acc, SelfKeyed e := by
  induction m generalizing acc with
  | nil => exact hacc
  | cons e rest ih =>
      simp only [List.foldl_cons]
      refine ih _ (fun e' he' => ?_)
      by_cases hc : (isDateKey e.1 && decide (e.2.id ≠ "")) = true
      · rw [if_pos hc] at he'
        rcases mem_putKV _ _ _ _ he' with h | h
        · exact h ▸ selfKeyed_putKV_target _ _ rfl
        · exact hacc e' h
      · rw [if_neg hc] at he'
        rcases mem_putKV _ _ _ _ he' with h | h
        · subst h
          unfold SelfKeyed
          rw [if_neg hc]
        · exact hacc e' h

/-- The key normalization never produces duplicate keys. -/
theorem normalizeFold_nodup (m : LiftStore) (acc : LiftStore)
    (hacc : (acc.map Prod.fst).Nodup) :
    ((m.foldl (fun a e =>
      if isDateKey e.1 && decide (e.2.id ≠ "") then putKV a e.2.id e.2
      else putKV a e.1 e.2) acc).map Prod.fst).Nodup := by
  induction m generalizing acc with
  | nil => exact hacc
  | cons e rest ih =>
      simp only [List.foldl_cons]
      refine ih _ ?_
      by_cases hc : (isDateKey e.1 && decide (e.2.id ≠ "")) = true
      · rw [if_pos hc]
        exact keys_putKV_nodup _ _ _ hacc
      · rw [if_neg hc]
        exact keys_putKV_nodup _ _ _ hacc

theorem normalizeLiftKeys_selfKeyed (m : LiftStore) :
    ∀ e ∈ normalizeLiftKeys m, SelfKeyed e :=
  normalizeFold_selfKeyed m [] (by simp)

theorem normalizeLiftKeys_nodup (m : LiftStore) :
    ((normalizeLiftKeys m).map Prod.fst).Nodup :=
  normalizeFold_nodup m [] (by simp)

/-- Normalizing an already-normal store changes no lookup. -/
theorem normalizeLiftKeys_getKV (m : LiftStore)
    (hsk : ∀ e ∈ m, SelfKeyed e) (hnd : (m.map Prod.fst).Nodup) (k : String) :
    getKV (normalizeLiftKeys m) k = getKV m k := by
  rw [normalizeLiftKeys, normalizeFold_eq m [] hsk, foldl_putKV_lookup m [] k hnd]
  cases h : getKV m k <;> simp [getKV]

theorem saveLiftLocally_selfKeyed (raw : LiftStore) (l : Lift) :
    ∀ e ∈ saveLiftLocally raw l, SelfKeyed e := by
  intro e he
  rcases mem_putKV _ _ _ _ he with h | h
  · exact h ▸ selfKeyed_putKV_target _ _ rfl
  · exact normalizeLiftKeys_selfKeyed raw e h

theorem saveLiftLocally_nodup (raw : LiftStore) (l : Lift) :
    ((saveLiftLocally raw l).map Prod.fst).Nodup :=
  keys_putKV_nodup _ _ _ (normalizeLiftKeys_nodup raw)

end Liftbook

namespace Liftbook

/-- C9: after the editor's `saveLift` (normalize, then
`saveLiftLocally`) completes, `retrieveLift` at the lift's id returns
exactly the normalized record: the date filled in when missing and every
empty-sets movement removed. -/
theorem C9_save_retrieve_roundtrip (raw : LiftStore) (l : Lift) (today : String) :
    retrieveLift (saveLiftLocally raw (saveLiftNormalize today l)) l.id =
      some (saveLiftNormalize today l) := by
  have hid : (saveLiftNormalize today l).id = l.id := rfl
  have hget : getKV (normalizeLiftKeys (saveLiftLocally raw (saveLiftNormalize today l)))
      l.id = some (saveLiftNormalize today l) := by
    rw [normalizeLiftKeys_getKV _ (saveLiftLocally_selfKeyed _ _) (saveLiftLocally_nodup _ _)]
    rw [saveLiftLocally, hid]
    exact getKV_putKV_self _ _ _
  rw [retrieveLift]
  simp only [hget]

/-- C10: `saveLiftLocally` is an upsert keyed by `lift.id`: reading the
store back, every other id maps to exactly what it mapped to before the
call, and the saved id maps to the saved record. -/
theorem C10_saveLiftLocally_frame (raw : LiftStore) (l : Lift) :
    (∀ k, k ≠ l.id →
      getKV (retrieveLifts (saveLiftLocally raw l)) k =
        getKV (retrieveLifts raw) k) ∧
    getKV (retrieveLifts (saveLiftLocally raw l)) l.id = some l := by
  have hnorm : ∀ k, getKV (retrieveLifts (saveLiftLocally raw l)) k =
      getKV (saveLiftLocally raw l) k := fun k =>
    normalizeLiftKeys_getKV _ (saveLiftLocally_selfKeyed _ _) (saveLiftLocally_nodup _ _) k
  constructor
  · intro k hk
    rw [hnorm k, saveLiftLocally, getKV_putKV_other _ _ _ _ hk]
    rfl
  · rw [hnorm l.id, saveLiftLocally]
    exact getKV_putKV_self _ _ _

/-- A concrete second lift for the C10 witness. -/
def c10Other : Lift := ⟨"2", "2024-01-01", "Leg Day", [⟨"Leg Press", [⟨"200", "8"⟩]⟩]⟩

/-- A concrete saved lift for the C10 witness. -/
def c10Saved : Lift := ⟨"1", "2024-01-02", "Push Day", [⟨"Bench Press", [⟨"135", "5"⟩]⟩]⟩

/-- Witness for C10: saving id "1" into a store holding id "2" leaves
the record of "2" unchanged and stores the record of "1". -/
theorem C10_witness :
    getKV (retrieveLifts (saveLiftLocally [("2", c10Other)] c10Saved)) "2" =
      getKV (retrieveLifts [("2", c10Other)]) "2" ∧
    getKV (retrieveLifts (saveLiftLocally [("2", c10Other)] c10Saved)) "1" =
      some c10Saved :=
  ⟨(C10_saveLiftLocally_frame [("2", c10Other)] c10Saved).1 "2" (by decide),
   (C10_saveLiftLocally_frame [("2", c10Other)] c10Saved).2⟩

end Liftbook

namespace Liftbook

/-! ## Weight-suggestion engine (`LiftEditorScreen.tsx` lines 726-731,
750-769, 998-1143)

`Date.parse` of the host environment is abstracted as a `dateParse`
oracle (epoch milliseconds at local midnight; `none` models `NaN`); the
lift collection is `Object.values(allLifts)` in insertion order.  The
suggestion is returned as the chosen weight value; the final
`toString()` rendering is elided. -/

/-- `getLiftSortKey` (lines 726-731): the recency score
`max(Date.parse(date + "T00:00:00") or 0, Number(id) or 0)`. -/
def getLiftSortKey (dateParse : String → Option ℚ) (l : Lift) : ℚ :=
  let parsedDate := (dateParse l.date).getD 0
  let parsedId := (jsNumber l.id).getD 0
  max parsedDate parsedId

/-- The three suggestion contexts (`suggestionContext` memo, lines
750-769); `Option.none` models the JS `null`. -/
inductive SuggestionContext where
  | title
  | movement
  | weight
deriving DecidableEq, Repr

/-- `suggestionContext` derivation (lines 750-769). -/
def suggestionContext (mode : EntryMode) (target : EditingTarget)
    (title : String) : Option SuggestionContext :=
  if mode = .double ∧ target = .set then some .weight
  else if mode ≠ .single then Option.none
  else if target = .set then Option.none
  else if target = .title then some .title
  else if title = "" then some .title
  else some .movement

/-- One element of the `weightedSets` array (lines 1018-1021). -/
structure WeightedSet where
  weight : ℚ
  sortKey : ℚ
deriving DecidableEq, Repr

/-- Case-insensitive movement-name match used throughout the engine:
`movement.name.trim().toLowerCase() === normalizedName`. -/
def nameMatches (normalizedName : String) (m : Movement) : Bool :=
  decide (jsLower (jsTrim m.name) = normalizedName)

/-- One iteration of the previous-lift selection loop (lines 1029-1054):
skip the current lift; skip lifts not strictly earlier; among the rest,
keep the matching lift with the greatest sort key seen so far. -/
def selectStep (dateParse : String → Option ℚ) (lift : Lift)
    (normalizedName : String) (acc : Option Lift × ℚ) (liftItem : Lift) :
    Option Lift × ℚ :=
  if liftItem.id = lift.id then acc
  else
    let liftSortKey := getLiftSortKey dateParse liftItem
    if getLiftSortKey dateParse lift ≤ liftSortKey then acc
    else if liftItem.movements.any (nameMatches normalizedName) then
      (if acc.2 < liftSortKey then (some liftItem, liftSortKey) else acc)
    else acc

/-- The previous-lift selection loop (lines 1024-1054): among lifts
other than the current one whose sort key is strictly below the current
key and which contain the movement, keep the one with the greatest sort
key (first found wins ties).  State: `(previousLift, previousLiftSortKey)`
starting at `(null, -1)`. -/
def selectPreviousLift (dateParse : String → Option ℚ) (allLifts : List Lift)
    (lift : Lift) (normalizedName : String) : Option Lift × ℚ :=
  allLifts.foldl (selectStep dateParse lift normalizedName) (Option.none, -1)

/-- Collection of the prior lift's valid positive-weight sets (lines
1057-1076): matching movements contribute their sets in order, each with
`sortKey = previousLiftSortKey * 1000 + setIndex`. -/
def collectWeightedSets (prior : Lift) (previousLiftSortKey : ℚ)
    (normalizedName : String) : List WeightedSet :=
  prior.movements.foldl (fun acc m =>
    if nameMatches normalizedName m then
      acc ++ ((mapWithIndex (fun setIndex s => (setIndex, s)) m.sets).filterMap
        (fun p =>
          match jsParseFloat p.2.weight with
          | some w =>
              if w ≤ 0 then Option.none
              else some ⟨w, previousLiftSortKey * 1000 + (p.1 : ℚ)⟩
          | Option.none => Option.none))
    else acc) []

/-- `range / cluster.length` of a candidate cluster (lines 1102-1103). -/
def clusterRatio (c : List WeightedSet) : ℚ :=
  (((c.getLast?).map WeightedSet.weight).getD 0 -
    ((c.head?).map WeightedSet.weight).getD 0) / (c.length : ℚ)

/-- All slices `byWeight.slice(start, end)` visited by the double loop
(lines 1096-1099), in visit order: `start` ascending, `end` ascending
from `start + 1` to the length. -/
def clusterCandidates (l : List WeightedSet) : List (List WeightedSet) :=
  (List.range l.length).flatMap (fun s =>
    (((List.range (l.length + 1)).filter (fun e => decide (s + 1 ≤ e))).map
      (fun e => (l.drop s).take (e - s))))

/-- One iteration of the cluster search (lines 1100-1111): skip slices
shorter than 2; adopt a slice when its ratio beats the best so far, or
when the ratios differ by less than 0.1 and the slice is longer.
`Option.none` models the initial `bestRange = Infinity`. -/
def clusterStep (st : List WeightedSet × Option ℚ) (c : List WeightedSet) :
    List WeightedSet × Option ℚ :=
  if c.length < 2 then st
  else
    let rangePerItem := clusterRatio c
    match st.2 with
    | Option.none => (c, some rangePerItem)
    | some bestRange =>
        if rangePerItem < bestRange ∨
            (|rangePerItem - bestRange| < 1/10 ∧ st.1.length < c.length) then
          (c, some rangePerItem)
        else st

/-- The full cluster search (lines 1092-1113). -/
def findBestCluster (byWeight : List WeightedSet) : List WeightedSet :=
  ((clusterCandidates byWeight).foldl clusterStep ([], Option.none)).1

/-- `filtered.sort((a, b) => b.sortKey - a.sortKey)` is a stable
descending sort, whose first element is the first maximum by `sortKey`;
this fold computes that element directly (lines 1137-1141). -/
def firstMaxBySortKey (l : List WeightedSet) : Option WeightedSet :=
  l.foldl (fun acc x =>
    match acc with
    | Option.none => some x
    | some a => if a.sortKey < x.sortKey then some x else acc) Option.none

/-- The part of `weightSuggestions` after the previous-lift selection
(lines 1057-1142): collect the prior lift's valid weighted sets, find
the tightest cluster, keep sets inside the buffered cluster range, and
return the most recent survivor's weight.  Everything here reads only
the selected prior lift. -/
def suggestFromPrior (previousLift : Lift) (previousLiftSortKey : ℚ)
    (normalizedName : String) : List ℚ :=
  let weightedSets := collectWeightedSets previousLift previousLiftSortKey normalizedName
  if weightedSets = [] then []
  else
    let byWeight := weightedSets.insertionSort (fun a b => a.weight ≤ b.weight)
    let bestCluster := findBestCluster byWeight
    let workingWeights := if 2 ≤ bestCluster.length then bestCluster else byWeight
    let clusterMin := ((workingWeights.head?).map WeightedSet.weight).getD 0
    let clusterMax := ((workingWeights.getLast?).map WeightedSet.weight).getD 0
    let clusterRange := clusterMax - clusterMin
    let buffer := max (clusterRange * (1/10)) (5/2)
    let minAllowed := clusterMin - buffer
    let maxAllowed := clusterMax + buffer
    let filtered := weightedSets.filter (fun x =>
      decide (minAllowed ≤ x.weight) && decide (x.weight ≤ maxAllowed))
    if filtered = [] then []
    else
      match firstMaxBySortKey filtered with
      | some best => [best.weight]
      | Option.none => []

/-- `weightSuggestions` (lines 998-1143), returning the suggested weight
value (the `toString()` rendering of the JS source is elided). -/
def weightSuggestions (dateParse : String → Option ℚ) (allLifts : List Lift)
    (lift : Lift) (entryMode : EntryMode) (editingTarget : EditingTarget)
    (editingMovementIndex : Option ℤ) : List ℚ :=
  if suggestionContext entryMode editingTarget lift.title ≠ some .weight then []
  else
    match editingMovementIndex with
    | Option.none => []
    | some i =>
        if i < 0 ∨ (lift.movements.length : ℤ) ≤ i then []
        else
          let currentMovement := movAt lift.movements i.toNat
          let movementName := jsTrim currentMovement.name
          if movementName = "" then []
          else
            let normalizedName := jsLower movementName
            let sel := selectPreviousLift dateParse allLifts lift normalizedName
            match sel.1 with
            | Option.none => []
            | some previousLift => suggestFromPrior previousLift sel.2 normalizedName

end Liftbook

namespace Liftbook

/-- The candidate test of the previous-lift selection loop: a lift other
than the current one, strictly earlier by recency score, containing a
movement whose normalized name matches. -/
def IsPriorCandidate (dateParse : String → Option ℚ) (lift : Lift) (nm : String)
    (q : Lift) : Prop :=
  q.id ≠ lift.id ∧
  getLiftSortKey dateParse q < getLiftSortKey dateParse lift ∧
  q.movements.any (nameMatches nm) = true

/-- Fold invariant of the selection loop: any selected lift is a
candidate carrying its own sort key, candidates never exceed the running
key, and the running key never decreases. -/
theorem selection_fold_aux (dateParse : String → Option ℚ) (lift : Lift) (nm : String)
    (lifts : List Lift) (acc : Option Lift × ℚ)
    (hacc : ∀ p, acc.1 = some p →
      IsPriorCandidate dateParse lift nm p ∧ acc.2 = getLiftSortKey dateParse p) :
    (∀ p, (lifts.foldl (selectStep dateParse lift nm) acc).1 = some p →
      (acc.1 = some p ∨ p ∈ lifts) ∧
      IsPriorCandidate dateParse lift nm p ∧
      (lifts.foldl (selectStep dateParse lift nm) acc).2 = getLiftSortKey dateParse p) ∧
    (∀ q ∈ lifts, IsPriorCandidate dateParse lift nm q →
      getLiftSortKey dateParse q ≤ (lifts.foldl (selectStep dateParse lift nm) acc).2) ∧
    acc.2 ≤ (lifts.foldl (selectStep dateParse lift nm) acc).2 := by
  induction lifts generalizing acc with
  | nil =>
      refine ⟨fun p hp => ⟨Or.inl hp, (hacc p hp).1, (hacc p hp).2⟩, by simp, le_refl _⟩
  | cons q rest ih =>
      simp only [List.foldl_cons]
      have hstep : ∀ p, (selectStep dateParse lift nm acc q).1 = some p →
          (IsPriorCandidate dateParse lift nm p ∧
            (selectStep dateParse lift nm acc q).2 = getLiftSortKey dateParse p) ∧
          (acc.1 = some p ∨ p = q) := by
        intro p hp
        unfold selectStep at hp ⊢
        by_cases h1 : q.id = lift.id
        · rw [if_pos h1] at hp ⊢
          exact ⟨⟨(hacc p hp).1, (hacc p hp).2⟩, Or.inl hp⟩
        · rw [if_neg h1] at hp ⊢
          by_cases h2 : getLiftSortKey dateParse lift ≤ getLiftSortKey dateParse q
          · rw [if_pos h2] at hp ⊢
            exact ⟨⟨(hacc p hp).1, (hacc p hp).2⟩, Or.inl hp⟩
          · rw [if_neg h2] at hp ⊢
            by_cases h3 : q.movements.any (nameMatches nm) = true
            · rw [if_pos h3] at hp ⊢
              by_cases h4 : acc.2 < getLiftSortKey dateParse q
              · rw [if_pos h4] at hp ⊢
                simp only [Option.some_inj] at hp
                subst hp
                exact ⟨⟨⟨h1, lt_of_not_le h2, h3⟩, rfl⟩, Or.inr rfl⟩
              · rw [if_neg h4] at hp ⊢
                exact ⟨⟨(hacc p hp).1, (hacc p hp).2⟩, Or.inl hp⟩
            · rw [if_neg h3] at hp ⊢
              exact ⟨⟨(hacc p hp).1, (hacc p hp).2⟩, Or.inl hp⟩
      have hmono : acc.2 ≤ (selectStep dateParse lift nm acc q).2 := by
        unfold selectStep
        by_cases h1 : q.id = lift.id
        · rw [if_pos h1]
        · rw [if_neg h1]
          by_cases h2 : getLiftSortKey dateParse lift ≤ getLiftSortKey dateParse q
          · rw [if_pos h2]
          · rw [if_neg h2]
            by_cases h3 : q.movements.any (nameMatches nm) = true
            · rw [if_pos h3]
              by_cases h4 : acc.2 < getLiftSortKey dateParse q
              · rw [if_pos h4]
                exact le_of_lt h4
              · rw [if_neg h4]
            · rw [if_neg h3]
      have hq : IsPriorCandidate dateParse lift nm q →
          getLiftSortKey dateParse q ≤ (selectStep dateParse lift nm acc q).2 := by
        intro hcand
        unfold selectStep
        rw [if_neg hcand.1, if_neg (not_le_of_lt hcand.2.1), if_pos hcand.2.2]
        by_cases h4 : acc.2 < getLiftSortKey dateParse q
        · rw [if_pos h4]
        · rw [if_neg h4]
          exact le_of_not_lt h4
      obtain ⟨ih1, ih2, ih3⟩ := ih (selectStep dateParse lift nm acc q)
        (fun p hp => (hstep p hp).1)
      refine ⟨fun p hp => ?_, fun p hp hcand => ?_, le_trans hmono ih3⟩
      · obtain ⟨hsrc, hcand, hkey⟩ := ih1 p hp
        refine ⟨?_, hcand, hkey⟩
        rcases hsrc with h | h
        · rcases (hstep p h).2 with h' | h'
          · exact Or.inl h'
          · exact Or.inr (h' ▸ List.mem_cons_self _ _)
        · exact Or.inr (List.mem_cons_of_mem _ h)
      · rcases List.mem_cons.mp hp with h | h
        · subst h
          exact le_trans (hq hcand) ih3
        · exact ih2 p h hcand

/-- The case-normalized name of the movement being edited, as computed
inside `weightSuggestions`. -/
def editedNameKey (lift : Lift) (i : ℤ) : String :=
  jsLower (jsTrim (movAt lift.movements i.toNat).name)

end Liftbook

namespace Liftbook

/-- Date-parse oracle for the C4 scenario: the prior date maps to a
smaller epoch value than the current date. -/
def c4DateParse : String → Option ℚ :=
  fun s => if s = "2024-01-01" then some 100
           else if s = "2024-01-02" then some 200
           else Option.none

/-- The prior lift of the C4 scenario: "Bench Press" with set weights
135, 140, 95 in that order. -/
def c4PriorLift : Lift :=
  ⟨"a1", "2024-01-01", "Push Day",
    [⟨"Bench Press", [⟨"135", "8"⟩, ⟨"140", "6"⟩, ⟨"95", "12"⟩]⟩]⟩

/-- The current lift of the C4 scenario: a fresh "Bench Press" movement
with no sets yet. -/
def c4CurrentLift : Lift := ⟨"a2", "2024-01-02", "Push Day", [⟨"Bench Press", []⟩]⟩

/-- C4: weight suggestions come only from the single most recent lift
strictly earlier than the current one (by recency score, current lift
excluded) containing a case-insensitive movement-name match: when no
such lift exists the suggestion list is empty; any selected lift is such
a candidate of maximal recency, and the whole suggestion is computed
from it alone (`suggestFromPrior`); in the concrete scenario with prior
set weights 135, 140, 95 the suggestion is exactly the weight 140
(latest set of the tightest cluster 135-140), not 95. -/
theorem C4_weight_suggestion_source :
    (∀ (dateParse : String → Option ℚ) (allLifts : List Lift) (lift : Lift)
        (mode : EntryMode) (target : EditingTarget) (i : ℤ),
      (∀ p ∈ allLifts, ¬ IsPriorCandidate dateParse lift (editedNameKey lift i) p) →
      weightSuggestions dateParse allLifts lift mode target (some i) = []) ∧
    (∀ (dateParse : String → Option ℚ) (allLifts : List Lift) (lift : Lift)
        (nm : String) (p : Lift),
      (selectPreviousLift dateParse allLifts lift nm).1 = some p →
      p ∈ allLifts ∧ IsPriorCandidate dateParse lift nm p ∧
      ∀ q ∈ allLifts, IsPriorCandidate dateParse lift nm q →
        getLiftSortKey dateParse q ≤ getLiftSortKey dateParse p) ∧
    (∀ (dateParse : String → Option ℚ) (allLifts : List Lift) (lift : Lift)
        (mode : EntryMode) (target : EditingTarget) (i : ℤ) (p : Lift),
      suggestionContext mode target lift.title = some .weight →
      ¬ (i < 0 ∨ (lift.movements.length : ℤ) ≤ i) →
      jsTrim (movAt lift.movements i.toNat).name ≠ "" →
      (selectPreviousLift dateParse allLifts lift (editedNameKey lift i)).1 = some p →
      weightSuggestions dateParse allLifts lift mode target (some i) =
        suggestFromPrior p
          (selectPreviousLift dateParse allLifts lift (editedNameKey lift i)).2
          (editedNameKey lift i)) ∧
    weightSuggestions c4DateParse [c4PriorLift, c4CurrentLift] c4CurrentLift
      .double .set (some 0) = [140] := by
  refine ⟨?_, ?_, ?_, by decide⟩
  · intro dateParse allLifts lift mode target i h
    unfold weightSuggestions
    split
    · rfl
    · simp only []
      split
      · rfl
      · split
        · rfl
        · have hsel := selection_fold_aux dateParse lift
            (jsLower (jsTrim (movAt lift.movements i.toNat).name)) allLifts
            (Option.none, -1) (by simp)
          cases hres : (selectPreviousLift dateParse allLifts lift
              (jsLower (jsTrim (movAt lift.movements i.toNat).name))).1 with
          | none => rfl
          | some p =>
              obtain ⟨hmem, hcand, -⟩ := hsel.1 p hres
              rcases hmem with h' | h'
              · exact absurd h' (by simp)
              · exact absurd hcand (h p h')
  · intro dateParse allLifts lift nm p hres
    have hsel := selection_fold_aux dateParse lift nm allLifts (Option.none, -1) (by simp)
    obtain ⟨hmem, hcand, hkey⟩ := hsel.1 p hres
    refine ⟨?_, hcand, fun q hq hqc => ?_⟩
    · rcases hmem with h' | h'
      · exact absurd h' (by simp)
      · exact h'
    · rw [← hkey] at *
      exact hsel.2.1 q hq hqc
  · intro dateParse allLifts lift mode target i p hctx hbound hname hres
    unfold editedNameKey at hres ⊢
    unfold weightSuggestions
    rw [if_neg (by simp [hctx])]
    simp only []
    rw [if_neg hbound]
    rw [if_neg hname]
    rw [hres]

/-- Witness for C4: with an empty history the suggestion list is empty,
and in the concrete scenario the selection returns the prior lift, which
is a candidate of maximal recency. -/
theorem C4_witness :
    weightSuggestions c4DateParse [] c4CurrentLift .double .set (some 0) = [] ∧
    (c4PriorLift ∈ [c4PriorLift, c4CurrentLift] ∧
      IsPriorCandidate c4DateParse c4CurrentLift "bench press" c4PriorLift ∧
      ∀ q ∈ [c4PriorLift, c4CurrentLift],
        IsPriorCandidate c4DateParse c4CurrentLift "bench press" q →
          getLiftSortKey c4DateParse q ≤ getLiftSortKey c4DateParse c4PriorLift) :=
  ⟨C4_weight_suggestion_source.1 c4DateParse [] c4CurrentLift .double .set 0 (by simp),
   C4_weight_suggestion_source.2.1 c4DateParse [c4PriorLift, c4CurrentLift]
     c4CurrentLift "bench press" c4PriorLift (by decide)⟩

end Liftbook

namespace Liftbook

/-! ## The tightest-cluster selection (claim C7) -/

/-- The contiguous sub-ranges of length at least 2 of the sorted weight
list: the search space the spec describes for the clustering step. -/
def subrangesLen2 (l : List WeightedSet) : List (List WeightedSet) :=
  (clusterCandidates l).filter (fun c => decide (2 ≤ c.length))

/-- The spec-side optimality predicate, written from the spec text: the
chosen sub-range has the smallest range-divided-by-length ratio, and
among equal-ratio sub-ranges it has maximal length. -/
def SpecTightestCluster (l : List WeightedSet) (c : List WeightedSet) : Prop :=
  c ∈ subrangesLen2 l ∧
  (∀ d ∈ subrangesLen2 l, clusterRatio c ≤ clusterRatio d) ∧
  (∀ d ∈ subrangesLen2 l, clusterRatio d = clusterRatio c → d.length ≤ c.length)

/-- A well-formed cluster-search state: the held cluster is a candidate
of length at least 2 and the held ratio is its ratio. -/
def GoodClusterState (S : List (List WeightedSet))
    (st : List WeightedSet × Option ℚ) : Prop :=
  st.1 ∈ S ∧ 2 ≤ st.1.length ∧ st.2 = some (clusterRatio st.1)

theorem clusterStep_skip (st : List WeightedSet × Option ℚ)
    (c : List WeightedSet) (h : c.length < 2) : clusterStep st c = st := by
  unfold clusterStep
  rw [if_pos h]

/-- One step of the cluster search: the state stays well formed, the
adopted-or-kept cluster relates to the processed slice (no worse ratio;
on an exact ratio tie, no shorter), and relates to the previous state
likewise.  The ratio-separation hypothesis `H` turns the 0.1-tolerance
comparison into an exact tie test. -/
theorem clusterStep_spec (S : List (List WeightedSet))
    (H : ∀ c ∈ S, ∀ d ∈ S,
      clusterRatio c = clusterRatio d ∨ 1/10 ≤ |clusterRatio c - clusterRatio d|)
    (st : List WeightedSet × Option ℚ) (c : List WeightedSet)
    (hc2 : 2 ≤ c.length) (hcS : c ∈ S)
    (hst : (st.2 = Option.none ∧ st.1 = []) ∨ GoodClusterState S st) :
    GoodClusterState S (clusterStep st c) ∧
    clusterRatio (clusterStep st c).1 ≤ clusterRatio c ∧
    (clusterRatio c = clusterRatio (clusterStep st c).1 →
      c.length ≤ (clusterStep st c).1.length) ∧
    (GoodClusterState S st →
      clusterRatio (clusterStep st c).1 ≤ clusterRatio st.1 ∧
      (clusterRatio st.1 = clusterRatio (clusterStep st c).1 →
        st.1.length ≤ (clusterStep st c).1.length)) := by
  have hlen : ¬ c.length < 2 := by omega
  unfold clusterStep
  rw [if_neg hlen]
  rcases hst with ⟨hn, he⟩ | ⟨hS, h2, hr⟩
  · rw [hn]
    simp only []
    refine ⟨⟨hcS, hc2, rfl⟩, le_refl _, fun _ => le_refl _, fun hg => ?_⟩
    obtain ⟨-, -, hsome⟩ := hg
    rw [hn] at hsome
    simp at hsome
  · rw [hr]
    simp only []
    by_cases hcond : clusterRatio c < clusterRatio st.1 ∨
        (|clusterRatio c - clusterRatio st.1| < 1/10 ∧ st.1.length < c.length)
    · rw [if_pos hcond]
      refine ⟨⟨hcS, hc2, rfl⟩, le_refl _, fun _ => le_refl _, fun _ => ?_⟩
      rcases hcond with hlt | ⟨habs, hlonger⟩
      · refine ⟨le_of_lt hlt, fun he' => absurd hlt ?_⟩
        rw [he']
        exact lt_irrefl _
      · rcases H c hcS st.1 hS with heq | hsep
        · exact ⟨le_of_eq heq, fun _ => le_of_lt hlonger⟩
        · exact absurd habs (not_lt_of_le hsep)
    · rw [if_neg hcond]
      push_neg at hcond
      obtain ⟨hge, himp⟩ := hcond
      refine ⟨⟨hS, h2, hr⟩, hge, fun he' => ?_,
        fun _ => ⟨le_refl _, fun _ => le_refl _⟩⟩
      by_cases habs : |clusterRatio c - clusterRatio st.1| < 1/10
      · exact himp habs
      · refine absurd ?_ habs
        rw [he']
        simp

/-- Invariant of the whole cluster-search fold under ratio separation:
the final state is optimal among the processed slices, with exact ties
resolved toward longer slices. -/
theorem cluster_fold_aux (S : List (List WeightedSet))
    (H : ∀ c ∈ S, ∀ d ∈ S,
      clusterRatio c = clusterRatio d ∨ 1/10 ≤ |clusterRatio c - clusterRatio d|)
    (cs : List (List WeightedSet)) (hcs : ∀ c ∈ cs, 2 ≤ c.length → c ∈ S)
    (st : List WeightedSet × Option ℚ)
    (hst : (st.2 = Option.none ∧ st.1 = []) ∨ GoodClusterState S st) :
    (((cs.foldl clusterStep st).2 = Option.none ∧ (cs.foldl clusterStep st).1 = []) ∨
      GoodClusterState S (cs.foldl clusterStep st)) ∧
    (∀ c ∈ cs, 2 ≤ c.length →
      GoodClusterState S (cs.foldl clusterStep st) ∧
      clusterRatio (cs.foldl clusterStep st).1 ≤ clusterRatio c ∧
      (clusterRatio c = clusterRatio (cs.foldl clusterStep st).1 →
        c.length ≤ (cs.foldl clusterStep st).1.length)) ∧
    (GoodClusterState S st →
      GoodClusterState S (cs.foldl clusterStep st) ∧
      clusterRatio (cs.foldl clusterStep st).1 ≤ clusterRatio st.1 ∧
      (clusterRatio st.1 = clusterRatio (cs.foldl clusterStep st).1 →
        st.1.length ≤ (cs.foldl clusterStep st).1.length)) := by
  induction cs generalizing st with
  | nil =>
      refine ⟨hst, by simp, fun hg => ⟨hg, le_refl _, fun _ => le_refl _⟩⟩
  | cons c cs' ih =>
      simp only [List.foldl_cons]
      have hcs' : ∀ d ∈ cs', 2 ≤ d.length → d ∈ S :=
        fun d hd => hcs d (List.mem_cons_of_mem _ hd)
      by_cases hlen : c.length < 2
      · rw [clusterStep_skip st c hlen]
        obtain ⟨ih1, ih2, ih3⟩ := ih hcs' st hst
        refine ⟨ih1, fun d hd hd2 => ?_, ih3⟩
        rcases List.mem_cons.mp hd with h | h
        · subst h
          exact absurd hd2 (by omega)
        · exact ih2 d h hd2
      · have hc2 : 2 ≤ c.length := by omega
        have hcS : c ∈ S := hcs c (List.mem_cons_self _ _) hc2
        obtain ⟨hgood', hbc, htiec, hstrel⟩ := clusterStep_spec S H st c hc2 hcS hst
        obtain ⟨ih1, ih2, ih3⟩ := ih hcs' (clusterStep st c) (Or.inr hgood')
        obtain ⟨hGoodR, hab, htieb⟩ := ih3 hgood'
        refine ⟨Or.inr hGoodR, fun d hd hd2 => ?_, fun hg => ?_⟩
        · rcases List.mem_cons.mp hd with rfl | h
          · refine ⟨hGoodR, le_trans hab hbc, fun he' => ?_⟩
            have hba : clusterRatio (clusterStep st d).1 ≤
                clusterRatio (cs'.foldl clusterStep (clusterStep st d)).1 := by
              rw [← he']
              exact hbc
            have heq : clusterRatio (clusterStep st d).1 =
                clusterRatio (cs'.foldl clusterStep (clusterStep st d)).1 :=
              le_antisymm hba hab
            have h1 : d.length ≤ (clusterStep st d).1.length := by
              refine htiec ?_
              rw [he', ← heq]
            have h2 : (clusterStep st d).1.length ≤
                (cs'.foldl clusterStep (clusterStep st d)).1.length := htieb heq
            exact le_trans h1 h2
          · exact ih2 d h hd2
        · obtain ⟨hb_st, htie_st⟩ := hstrel hg
          refine ⟨hGoodR, le_trans hab hb_st, fun he' => ?_⟩
          have hba : clusterRatio (clusterStep st c).1 ≤
              clusterRatio (cs'.foldl clusterStep (clusterStep st c)).1 := by
            have hx : clusterRatio (clusterStep st c).1 ≤ clusterRatio st.1 := hb_st
            rw [he'] at hx
            exact hx
          have heq : clusterRatio (clusterStep st c).1 =
              clusterRatio (cs'.foldl clusterStep (clusterStep st c)).1 :=
            le_antisymm hba hab
          have h1 : st.1.length ≤ (clusterStep st c).1.length := by
            refine htie_st ?_
            rw [← heq] at he'
            exact he'
          exact le_trans h1 (htieb heq)

/-- Refutation input for C7: sorted weights 1, 1.1, 1.25 (any sort
keys).  Sub-range ratios: [1, 1.1] has 1/20, [1, 1.1, 1.25] has 1/12,
[1.1, 1.25] has 3/40.  The scan adopts [1, 1.1] (ratio 1/20), then
[1, 1.1, 1.25] (within 0.1 and longer, ratio 1/12), then [1.1, 1.25]
(1/20 < 3/40 < 1/12) — ending on a sub-range whose ratio is NOT the
minimum. -/
def c7Weights : List WeightedSet := [⟨1, 0⟩, ⟨11/10, 1⟩, ⟨5/4, 2⟩]

/-- C7 counterexample: on the weights 1, 1.1, 1.25 the code selects
[1.1, 1.25] although the sub-range [1, 1.1] has a strictly smaller
range-divided-by-length ratio, so the selected sub-range is not the
ratio-minimal one the claim describes. -/
theorem C7_counterexample :
    findBestCluster c7Weights = [⟨11/10, 1⟩, ⟨5/4, 2⟩] ∧
    [(⟨1, 0⟩ : WeightedSet), ⟨11/10, 1⟩] ∈ subrangesLen2 c7Weights ∧
    clusterRatio [(⟨1, 0⟩ : WeightedSet), ⟨11/10, 1⟩] <
      clusterRatio (findBestCluster c7Weights) ∧
    ¬ SpecTightestCluster c7Weights (findBestCluster c7Weights) := by
  refine ⟨by decide, by decide, by decide, fun h => ?_⟩
  have hmin := h.2.1 [⟨1, 0⟩, ⟨11/10, 1⟩] (by decide)
  revert hmin
  decide

/-- C7 amended: the scan treats ratios within 0.1 of the current best as
ties broken toward the longer sub-range, so its choice can drift away
from the global minimum; but whenever all sub-range ratios are pairwise
equal or at least 0.1 apart, the selected sub-range is exactly one of
smallest ratio, with exact ties broken toward the larger sub-range. -/
theorem C7_cluster_selection_amended (l : List WeightedSet)
    (H : ∀ c ∈ subrangesLen2 l, ∀ d ∈ subrangesLen2 l,
      clusterRatio c = clusterRatio d ∨ 1/10 ≤ |clusterRatio c - clusterRatio d|)
    (hl : 2 ≤ l.length) :
    SpecTightestCluster l (findBestCluster l) := by
  unfold findBestCluster
  have hcs : ∀ c ∈ clusterCandidates l, 2 ≤ c.length → c ∈ subrangesLen2 l := by
    intro c hc h2
    unfold subrangesLen2
    rw [List.mem_filter]
    exact ⟨hc, by simpa using h2⟩
  obtain ⟨f1, f2, f3⟩ := cluster_fold_aux (subrangesLen2 l) H (clusterCandidates l)
    hcs ([], Option.none) (Or.inl ⟨rfl, rfl⟩)
  have htake_mem : l.take 2 ∈ clusterCandidates l := by
    unfold clusterCandidates
    refine List.mem_flatMap.mpr ⟨0, ?_, ?_⟩
    · rw [List.mem_range]
      omega
    · refine List.mem_map.mpr ⟨2, ?_, ?_⟩
      · rw [List.mem_filter, List.mem_range]
        refine ⟨by omega, by decide⟩
      · simp
  have htake_len : (l.take 2).length = 2 := by
    rw [List.length_take]
    omega
  obtain ⟨hGood, -, -⟩ := f2 (l.take 2) htake_mem (by rw [htake_len])
  refine ⟨hGood.1, fun d hd => ?_, fun d hd he => ?_⟩
  · have hd' := List.mem_filter.mp hd
    exact (f2 d hd'.1 (by simpa using hd'.2)).2.1
  · have hd' := List.mem_filter.mp hd
    exact (f2 d hd'.1 (by simpa using hd'.2)).2.2 he

/-- Ratio-separated weights for the C7 witness: 95, 135, 140 give
sub-range ratios 20, 15 and 2.5, pairwise at least 0.1 apart. -/
def c7SeparatedWeights : List WeightedSet := [⟨95, 0⟩, ⟨135, 1⟩, ⟨140, 2⟩]

/-- Witness for the amended C7 at separated ratios: the code selects a
spec-optimal cluster. -/
theorem C7_witness :
    SpecTightestCluster c7SeparatedWeights (findBestCluster c7SeparatedWeights) :=
  C7_cluster_selection_amended c7SeparatedWeights (by decide) (by decide)

end Liftbook
